import Mathlib

/-!
Verification development for the heihachi frame-data repository.

Strings are modelled as lists of characters (`Str`), Python dictionaries as
association lists in insertion order, and fallible operations (Python
exceptions) as `Except Err` values.  The definitions below are shallow
embeddings of `src/framedb/framedb.py` and
`src/frame_service/wavu/utils.py`; floating-point similarity ratios from
`difflib` are modelled as exact fractions (numerator/denominator pairs of
naturals) compared by cross-multiplication.
-/

abbrev Str := List Char

/-- Turn a Lean string literal into the `Str` representation. -/
def strL (s : String) : Str := s.toList

/-- Lowercase every character, as Python `str.lower` on the ASCII inputs used here. -/
def lowerStr (s : Str) : Str := s.map Char.toLower

/-- Python `str.strip`: drop whitespace from both ends. -/
def stripStr (s : Str) : Str :=
  ((s.dropWhile Char.isWhitespace).reverse.dropWhile Char.isWhitespace).reverse

/-- Python `needle in hay` substring containment. -/
def isSubstr : Str → Str → Bool
  | needle, [] => needle.isEmpty
  | needle, c :: t => needle.isPrefixOf (c :: t) || isSubstr needle t

/-- Fueled worker for Python `str.replace`: leftmost non-overlapping replacement. -/
def replaceFuel (old new : Str) : Nat → Str → Str
  | 0, s => s
  | _ + 1, [] => []
  | fuel + 1, c :: cs =>
    if old ≠ [] ∧ old.isPrefixOf (c :: cs) then
      new ++ replaceFuel old new fuel ((c :: cs).drop old.length)
    else
      c :: replaceFuel old new fuel cs

/-- Python `s.replace(old, new)` (for the nonempty patterns used by the code). -/
def replaceStr (s old new : Str) : Str := replaceFuel old new s.length s

/-- Python `s.split(c)` for a single-character separator. -/
def splitOnChar (c : Char) : Str → List Str
  | [] => [[]]
  | x :: xs =>
    let r := splitOnChar c xs
    if x = c then [] :: r else (x :: r.headI) :: r.tail

/-- Python `",".join(parts)`. -/
def joinComma (parts : List Str) : Str := List.intercalate [','] parts

/-- Modelled from the spec: the `Move` dataclass of `framedb/character.py`
(the file itself is not part of the provided sources); field list as in
spec §3, all textual fields plus the ordered `alias`/`alt` sequences and the
`parent` id. -/
structure Move where
  id : Str
  input : Str
  name : Str
  target : Str
  damage : Str
  on_block : Str
  on_hit : Str
  on_ch : Str
  startup : Str
  recovery : Str
  notes : Str
  image : Str
  video : Str
  aliases : List Str
  alt : List Str
  parent : Str
deriving DecidableEq

/-- Helper for building concrete `Move` records in examples: all fields other
than `id`, `input`, `startup` and `parent` are left empty. -/
def mkMove (id input startup parent : Str) : Move :=
  ⟨id, input, [], [], [], [], [], [], startup, [], [], [], [], [], [], parent⟩

/-- Error values modelling Python exceptions (`KeyError`, `ValueError`) plus a
`fuelError` marker for the fuel of the embedded parent walk, which is proved
unreachable below. -/
inductive Err where
  | keyError : Err
  | valueError : Err
  | fuelError : Err
deriving DecidableEq

instance {ε α : Type} [DecidableEq ε] [DecidableEq α] : DecidableEq (Except ε α) := fun x y =>
  match x, y with
  | Except.ok a, Except.ok b =>
    if h : a = b then isTrue (by rw [h]) else isFalse (fun hc => by cases hc; exact h rfl)
  | Except.error a, Except.error b =>
    if h : a = b then isTrue (by rw [h]) else isFalse (fun hc => by cases hc; exact h rfl)
  | Except.ok _, Except.error _ => isFalse (fun hc => by cases hc)
  | Except.error _, Except.ok _ => isFalse (fun hc => by cases hc)

/-- Association-list lookup modelling Python `dict` indexing (first match). -/
def alookup {β : Type} : List (Str × β) → Str → Option β
  | [], _ => none
  | (k, v) :: rest, key => if k = key then some v else alookup rest key

/-- In-place update of an existing key, keeping the entry's position, as a
Python `dict` assignment to a present key does. -/
def aupdate {β : Type} : List (Str × β) → Str → β → List (Str × β)
  | [], _, _ => []
  | (k, v) :: rest, key, nv =>
    if k = key then (k, nv) :: rest else (k, v) :: aupdate rest key nv

abbrev Store := List (Str × Move)

/-- Keys of a store in order. -/
def keysOf {β : Type} (st : List (Str × β)) : List Str := st.map (·.1)

/-- `_create_aliases` of `wavu/utils.py`: split the expanded input on the
alternation separator, keep the first segment as the canonical input, and
rebuild every other segment on the comma-joined prefix of the first segment. -/
def create_aliases (input : Str) : Str × List Str :=
  let parts := splitOnChar '_' input
  let inp := parts.headI
  let parentPre := (splitOnChar ',' inp).dropLast
  let aliases := parts.tail.map (fun part => joinComma (parentPre ++ [part]))
  (inp, aliases)

/-- Result of the upward parent walk of `_convert_wavu_movelist`
(lines 184-189): the stack of pushed ids (most recently pushed first), the
updated seen set and the move at which the walk stopped. -/
structure WalkResult where
  stack : List Str
  seen : List Str
  root : Move
deriving DecidableEq

/-- The `while curr_move.parent and not seen[curr_move.id]` walk of
`_convert_wavu_movelist`, with fuel; `none` models fuel exhaustion and
`Except.error` a Python `KeyError` on a dangling parent id. -/
def walkAux (store : Store) : Nat → Move → List Str → List Str → Option (Except Err WalkResult)
  | 0, _, _, _ => none
  | fuel + 1, curr, seen, stack =>
    if curr.parent = [] ∨ curr.id ∈ seen then
      some (Except.ok ⟨stack, seen, curr⟩)
    else
      match alookup store curr.parent with
      | none => some (Except.error Err.keyError)
      | some next => walkAux store fuel next (List.insert curr.id seen) (curr.id :: stack)

/-- The `while stack` pop loop of `_convert_wavu_movelist` (lines 197-209):
prepend the accumulated input/target/damage onto each popped move, set its
startup to the root startup, and thread the accumulators down the chain. -/
def popLoop : List Str → Store → List Str → Str → Str → Str → Str → Except Err (Store × List Str)
  | [], store, seen, _, _, _, _ => Except.ok (store, seen)
  | mid :: rest, store, seen, pin, ptar, pdmg, rstart =>
    match alookup store mid with
    | none => Except.error Err.keyError
    | some m =>
      let m' : Move :=
        { m with
          input := pin ++ m.input
          target := ptar ++ m.target
          damage := pdmg ++ m.damage
          startup := rstart }
      popLoop rest (aupdate store mid m') (List.insert m'.id seen) m'.input m'.target m'.damage rstart

/-- One iteration of the `for move in movelist` loop of
`_convert_wavu_movelist`: walk to the root, initialise the accumulators from
it, mark it seen, run the pop loop, and split alternation separators out of
the move's expanded input. -/
def process_move (st : Store × List Str) (mid : Str) : Except Err (Store × List Str) :=
  match alookup st.1 mid with
  | none => Except.error Err.keyError
  | some m0 =>
    match walkAux st.1 (st.1.length + 1) m0 st.2 [] with
    | none => Except.error Err.fuelError
    | some (Except.error e) => Except.error e
    | some (Except.ok w) =>
      match popLoop w.stack st.1 (List.insert w.root.id w.seen)
        w.root.input w.root.target w.root.damage w.root.startup with
      | Except.error e => Except.error e
      | Except.ok (store2, seen2) =>
        match alookup store2 mid with
        | none => Except.error Err.keyError
        | some mfin =>
          if '_' ∈ mfin.input then
            Except.ok
              (aupdate store2 mid
                { mfin with
                  input := (create_aliases mfin.input).1
                  aliases := (create_aliases mfin.input).2 }, seen2)
          else
            Except.ok (store2, seen2)

/-- The initial `{move.id: move for move in movelist}` store. -/
def buildStore (movelist : List Move) : Store := movelist.map (fun m => (m.id, m))

/-- `_convert_wavu_movelist` of `wavu/utils.py`: resolve every move of a raw
movelist against its parent chain and return the id-keyed store. -/
def convert_wavu_movelist (movelist : List Move) : Except Err Store := do
  let st ← movelist.foldlM (fun st m => process_move st m.id) (buildStore movelist, ([] : List Str))
  pure st.1

/-- Modelled from the spec: the `REPLACE` substitution table of
`framedb/const.py` (not among the provided sources) — a table of symbol
variants such as alternate plus glyphs, applied in a fixed stable order. -/
def REPLACE : List (Str × Str) := [(strL "＋", strL "+")]

/-- `FrameDb._simplify_input` of `framedb.py`: strip and lowercase, apply the
`rage`/`heat` shorthand and the `REPLACE` table, then expand a leading
crouch-dash (`cd`, unless `cds`) or wave-run (`wr`) token. -/
def simplify_input (input_query : Str) : Str :=
  let s0 := lowerStr (stripStr input_query)
  let s1 := replaceStr s0 (strL "rage") (strL "r.")
  let s2 := replaceStr s1 (strL "heat") (strL "h.")
  let s3 := REPLACE.foldl (fun acc p => replaceStr acc p.1 p.2) s2
  let s4 :=
    if lowerStr (s3.take 2) = strL "cd" ∧ lowerStr (s3.take 3) ≠ strL "cds" then
      replaceStr (lowerStr s3) (strL "cd") (strL "fnddf")
    else s3
  if lowerStr (s4.take 2) = strL "wr" then
    replaceStr (lowerStr s4) (strL "wr") (strL "fff")
  else s4

/-- `FrameDb._is_command_in_alias`: the query equals one of the move's alias
entries up to input simplification. -/
def is_command_in_alias (move_query : Str) (move : Move) : Bool :=
  move.aliases.any (fun a => decide (simplify_input move_query = simplify_input a))

/-- `FrameDb._is_command_in_alt`: the query equals one of the move's alt
entries up to input simplification. -/
def is_command_in_alt (move_query : Str) (move : Move) : Bool :=
  move.alt.any (fun a => decide (simplify_input move_query = simplify_input a))

/-- Modelled from the spec: a playable `Character` of `framedb/character.py`
(not among the provided sources): a name plus an id-keyed movelist mapping. -/
structure Character where
  name : Str
  movelist : Store
deriving DecidableEq

/-- The `FrameDb.frames` mapping from character identifier to `Character`. -/
abbrev FrameDbT := List (Str × Character)

/-- The `movelist.values()` view of a character's moves, in enumeration order. -/
def movesOf (ch : Character) : List Move := ch.movelist.map (·.2)

/-- Modelled from the spec: the `MOVE_TYPE_ALIAS` table of `framedb/const.py`
(not among the provided sources): each known move type paired with its set of
accepted query aliases. -/
def MOVE_TYPE_ALIAS : List (Str × List Str) :=
  [(strL "Homing", [strL "homing"]), (strL "Power Crush", [strL "power crush", strL "armor"])]

/-- `FrameDb._correct_move_type`: membership search of the lowered query in the
move-type alias table. -/
def correct_move_type (move_type_query : Str) : Option Str :=
  (MOVE_TYPE_ALIAS.find? (fun p => decide (lowerStr move_type_query ∈ p.2))).map (·.1)

/-- `FrameDb.get_move_by_input`: exact-input stage — direct simplified-input
equality first, then alt membership, then alias membership, first match in
movelist enumeration order; `Except.error` models the `KeyError` raised by
`self.frames[character]` for an absent character. -/
def get_move_by_input (db : FrameDbT) (character : Str) (input_query : Str) :
    Except Err (Option Move) :=
  match alookup db character with
  | none => Except.error Err.keyError
  | some ch =>
    let ml := movesOf ch
    match ml.filter (fun e => decide (simplify_input e.input = simplify_input input_query)) with
    | m :: _ => Except.ok (some m)
    | [] =>
      match ml.filter (fun m => is_command_in_alt input_query m) with
      | m :: _ => Except.ok (some m)
      | [] =>
        match ml.filter (fun m => is_command_in_alias input_query m) with
        | m :: _ => Except.ok (some m)
        | [] => Except.ok none

/-- `FrameDb.get_moves_by_move_name`: case-insensitive substring match of the
query against every move's name. -/
def get_moves_by_move_name (db : FrameDbT) (character : Str) (move_name_query : Str) :
    Except Err (List Move) :=
  match alookup db character with
  | none => Except.error Err.keyError
  | some ch =>
    Except.ok ((movesOf ch).filter (fun m => isSubstr (lowerStr move_name_query) (lowerStr m.name)))

/-- `FrameDb.get_moves_by_move_type`: correct the query to a known move type,
then match the type's label against every move's notes. -/
def get_moves_by_move_type (db : FrameDbT) (character : Str) (move_type_query : Str) :
    Except Err (List Move) :=
  match alookup db character with
  | none => Except.error Err.keyError
  | some ch =>
    match correct_move_type move_type_query with
    | some mt => Except.ok ((movesOf ch).filter (fun m => isSubstr (lowerStr mt) (lowerStr m.notes)))
    | none => Except.ok []

/-- `FrameDb.get_move_by_id`: dictionary lookup of a move id, explicit absence
as `none`. -/
def get_move_by_id (db : FrameDbT) (character : Str) (move_id : Str) :
    Except Err (Option Move) :=
  match alookup db character with
  | none => Except.error Err.keyError
  | some ch => Except.ok (alookup ch.movelist move_id)

/-- An exact fraction, modelling the floating-point similarity ratios of
`difflib.SequenceMatcher` as numerator/denominator pairs of naturals. -/
abbrev Frac := Nat × Nat

/-- `difflib._calculate_ratio`: `2*matches/length`, and `1.0` when `length` is
zero. -/
def calc_ratio (ms ln : Nat) : Frac :=
  if ln = 0 then (1, 1) else (2 * ms, ln)

/-- Fraction comparison `a ≥ b` by cross-multiplication (denominators produced
by `calc_ratio` are always positive). -/
def fracGe (a b : Frac) : Prop := b.1 * a.2 ≤ a.1 * b.2

/-- Strict fraction comparison `a > b` by cross-multiplication. -/
def fracGt (a b : Frac) : Prop := b.1 * a.2 < a.1 * b.2

/-- Fraction equality by cross-multiplication. -/
def fracEq (a b : Frac) : Prop := b.1 * a.2 = a.1 * b.2

instance (a b : Frac) : Decidable (fracGe a b) := by unfold fracGe; infer_instance

instance (a b : Frac) : Decidable (fracGt a b) := by unfold fracGt; infer_instance

instance (a b : Frac) : Decidable (fracEq a b) := by unfold fracEq; infer_instance

/-- `SequenceMatcher.real_quick_ratio` on sequences `a` (candidate) and `b`
(query word): the length-based upper bound `2*min(len(a),len(b))/(len(a)+len(b))`. -/
def real_quick_ratio (a b : Str) : Frac :=
  calc_ratio (min a.length b.length) (a.length + b.length)

/-- `SequenceMatcher.quick_ratio`: the character-multiset upper bound — each
character of `a` matches while still available in `b`. -/
def quick_ratio (a b : Str) : Frac :=
  calc_ratio ((a.dedup.map (fun c => min (a.count c) (b.count c))).sum) (a.length + b.length)

/-- The ascending occurrence positions of character `c` in `b`
(`SequenceMatcher.b2j`, no junk for the short strings at hand). -/
def positionsOf (c : Char) (b : Str) : List Nat :=
  (List.range b.length).filter (fun j => decide (b[j]? = some c))

/-- One row of the `find_longest_match` dynamic program: extend runs ending at
the previous row (`j2len`) at every occurrence of `a[i]` within `[blo, bhi)`,
updating the best block on a strictly longer run. -/
def flmRow (i : Nat) (js : List Nat) (j2len : List (Nat × Nat)) (best : Nat × Nat × Nat) :
    List (Nat × Nat) × (Nat × Nat × Nat) :=
  let out := js.foldl
    (fun (acc : List (Nat × Nat) × (Nat × Nat × Nat)) j =>
      let k := (if j = 0 then 0 else ((j2len.lookup (j - 1)).getD 0)) + 1
      let nbest := if acc.2.2.2 < k then (i + 1 - k, j + 1 - k, k) else acc.2
      ((j, k) :: acc.1, nbest))
    (([] : List (Nat × Nat)), best)
  out

/-- `SequenceMatcher.find_longest_match` over `a[alo:ahi]` and `b[blo:bhi]`
(junk-free case): row-by-row dynamic program, keeping the first longest
matching block in scan order. -/
def find_longest_match (a b : Str) (alo ahi blo bhi : Nat) : Nat × Nat × Nat :=
  let out := (List.range' alo (ahi - alo)).foldl
    (fun (acc : List (Nat × Nat) × (Nat × Nat × Nat)) i =>
      match a[i]? with
      | none => (([] : List (Nat × Nat)), acc.2)
      | some c =>
        let js := (positionsOf c b).filter (fun j => decide (blo ≤ j ∧ j < bhi))
        flmRow i js acc.1 acc.2)
    (([] : List (Nat × Nat)), (alo, blo, 0))
  out.2

/-- Total size of the matching blocks of `SequenceMatcher.get_matching_blocks`:
recursively split around the longest match; the fuel is always sufficient at
the top-level call in `ratio`. -/
def matched_size (a b : Str) : Nat → Nat × Nat × Nat × Nat → Nat
  | 0, _ => 0
  | fuel + 1, (alo, ahi, blo, bhi) =>
    let r := find_longest_match a b alo ahi blo bhi
    let i := r.1
    let j := r.2.1
    let k := r.2.2
    if k = 0 then 0
    else
      k + matched_size a b fuel (alo, i, blo, j) + matched_size a b fuel (i + k, ahi, j + k, bhi)

/-- `SequenceMatcher.ratio` on sequences `a` (candidate) and `b` (query word):
twice the total matched size over the total length. -/
def ratio (a b : Str) : Frac :=
  calc_ratio (matched_size a b (a.length + b.length + 1) (0, a.length, 0, b.length))
    (a.length + b.length)

/-- Descending lexicographic order on `(score, index)` pairs, as Python's
`heapq.nlargest` compares the `(ratio, idx)` tuples. -/
def pOrd (x y : Frac × Nat) : Prop :=
  fracGt x.1 y.1 ∨ (fracEq x.1 y.1 ∧ y.2 ≤ x.2)

instance (x y : Frac × Nat) : Decidable (pOrd x y) := by unfold pOrd; infer_instance

/-- Insert a scored candidate into a descending-ordered list. -/
def insertDesc (p : Frac × Nat) : List (Frac × Nat) → List (Frac × Nat)
  | [] => [p]
  | q :: qs => if pOrd p q then p :: q :: qs else q :: insertDesc p qs

/-- Sort scored candidates in descending order, the order in which
`heapq.nlargest` returns its results. -/
def sortDesc (l : List (Frac × Nat)) : List (Frac × Nat) := l.foldr insertDesc []

/-- Python `enumerate` with a start index. -/
def enumFrom {α : Type} (i : Nat) : List α → List (Nat × α)
  | [] => []
  | a :: l => (i, a) :: enumFrom (i + 1) l

/-- `_get_close_matches_indices` of `framedb.py`: validate `n` and `cutoff`,
keep candidates passing all three ratio gates at the cutoff, and return the
indices of the `n` best, ranked by descending score. -/
def get_close_matches_indices (n : Nat) (cutoff : Frac) (word : Str)
    (possibilities : List Str) : Except Err (List Nat) :=
  if 0 < n then
    if fracGe cutoff (0, 1) ∧ fracGe (1, 1) cutoff then
      let cands := (enumFrom 0 possibilities).filterMap
        (fun p =>
          if fracGe (real_quick_ratio p.2 word) cutoff ∧
              fracGe (quick_ratio p.2 word) cutoff ∧
              fracGe (ratio p.2 word) cutoff then
            some (ratio p.2 word, p.1)
          else none)
      Except.ok (((sortDesc cands).take n).map (·.2))
    else Except.error Err.valueError
  else Except.error Err.valueError

/-- `FrameDb.get_moves_by_move_input`: fuzzy-input stage — close matches of the
simplified query among the simplified move inputs, mapped back to moves. -/
def get_moves_by_move_input (db : FrameDbT) (character : Str) (input_query : Str) :
    Except Err (List Move) :=
  match alookup db character with
  | none => Except.error Err.keyError
  | some ch =>
    let movelist := movesOf ch
    let command_list := movelist.map Move.input
    match get_close_matches_indices 5 (7, 10) (simplify_input input_query)
        (command_list.map simplify_input) with
    | Except.error e => Except.error e
    | Except.ok idxs => Except.ok (idxs.filterMap (fun idx => movelist[idx]?))

/-- `FrameDb.search_move`: staged resolution — exact input match, unique name
substring match, unique fuzzy input match, else the concatenated candidate
lists. -/
def search_move (db : FrameDbT) (character : Character) (move_query : Str) :
    Except Err (Move ⊕ List Move) := do
  let character_move ← get_move_by_input db character.name move_query
  let similar_name_moves ← get_moves_by_move_name db character.name move_query
  let similar_input_moves ← get_moves_by_move_input db character.name move_query
  match character_move with
  | some m => pure (Sum.inl m)
  | none =>
    match similar_name_moves with
    | [m] => pure (Sum.inl m)
    | _ =>
      match similar_input_moves with
      | [m] => pure (Sum.inl m)
      | _ => pure (Sum.inr (similar_name_moves ++ similar_input_moves))

/-- An `Except` computation finished without raising. -/
def isOkE {α : Type} (e : Except Err α) : Prop := ∃ v, e = Except.ok v

/-- A store is wellformed when every entry's move carries the entry's key as
its id (true of `buildStore` output and preserved by the resolver). -/
def wfStore (st : Store) : Prop := ∀ p ∈ st, (p.2 : Move).id = p.1

/-- Number of store keys not yet marked seen — the termination measure of the
parent walk. -/
def unseenCount (st : Store) (seen : List Str) : Nat :=
  ((keysOf st).filter (fun k => decide (k ∉ seen))).length

/-- All moves stored under the given keys have separator-free inputs. -/
def noSep (st : Store) (R : List Str) : Prop :=
  ∀ k ∈ R, ∀ m, alookup st k = some m → '_' ∉ m.input

/-- C2: for the 3-level chain A(root, input "f+1") ← B(input "+2") ← C(input
"+3") with distinct raw startups, resolution expands the inputs by
prepend-concatenation to "f+1", "f+1+2", "f+1+2+3" and gives all three moves
the root's startup — in both root-first and leaf-first enumeration orders. -/
theorem resolve_three_level_chain :
    convert_wavu_movelist
      [mkMove (strL "a") (strL "f+1") (strL "i10") [],
       mkMove (strL "b") (strL "+2") (strL "i12") (strL "a"),
       mkMove (strL "c") (strL "+3") (strL "i14") (strL "b")] =
    Except.ok
      [(strL "a", mkMove (strL "a") (strL "f+1") (strL "i10") []),
       (strL "b", mkMove (strL "b") (strL "f+1+2") (strL "i10") (strL "a")),
       (strL "c", mkMove (strL "c") (strL "f+1+2+3") (strL "i10") (strL "b"))] ∧
    convert_wavu_movelist
      [mkMove (strL "c") (strL "+3") (strL "i14") (strL "b"),
       mkMove (strL "b") (strL "+2") (strL "i12") (strL "a"),
       mkMove (strL "a") (strL "f+1") (strL "i10") []] =
    Except.ok
      [(strL "c", mkMove (strL "c") (strL "f+1+2+3") (strL "i10") (strL "b")),
       (strL "b", mkMove (strL "b") (strL "f+1+2") (strL "i10") (strL "a")),
       (strL "a", mkMove (strL "a") (strL "f+1") (strL "i10") [])] := by decide

/-- C5 counterexample: the resolver does not append the derived alias entries
to the move's alias sequence — it replaces the sequence.  A move with
source-supplied alias "x" and input "f+1+3_f+2+4" resolves to aliases
("f+2+4"), not ("x", "f+2+4") as claimed. -/
theorem alias_set_not_append_counterexample :
    convert_wavu_movelist
      [{ mkMove (strL "a") (strL "f+1+3_f+2+4") (strL "s") [] with aliases := [strL "x"] }] =
      Except.ok
        [(strL "a",
          { mkMove (strL "a") (strL "f+1+3") (strL "s") [] with aliases := [strL "f+2+4"] })] ∧
    ([strL "f+2+4"] : List Str) ≠ [strL "x", strL "f+2+4"] := by decide

/-- C5 amended: resolution splits the expanded input on "_", keeps the first
segment as the canonical input, and sets (not appends) the alias sequence to
the reconstructed remaining segments: "f+1+3_f+2+4" gives canonical input
"f+1+3" and aliases ("f+2+4"); "d/f+1,2_3" gives aliases ("d/f+1,3"). -/
theorem alias_derivation_amended :
    create_aliases (strL "f+1+3_f+2+4") = (strL "f+1+3", [strL "f+2+4"]) ∧
    create_aliases (strL "d/f+1,2_3") = (strL "d/f+1,2", [strL "d/f+1,3"]) ∧
    convert_wavu_movelist
      [{ mkMove (strL "a") (strL "f+1+3_f+2+4") (strL "s") [] with aliases := [strL "x"] },
       mkMove (strL "b") (strL "d/f+1,2_3") (strL "s") []] =
      Except.ok
        [(strL "a",
          { mkMove (strL "a") (strL "f+1+3") (strL "s") [] with aliases := [strL "f+2+4"] }),
         (strL "b",
          { mkMove (strL "b") (strL "d/f+1,2") (strL "s") [] with aliases := [strL "d/f+1,3"] })] := by
  decide

/-- C6 counterexample: the cd-rule does not replace only the leading token;
`str.replace` substitutes every occurrence, so "cd1,cd2" simplifies to
"fnddf1,fnddf2" rather than leaving the non-leading "cd" untouched. -/
theorem cd_rule_not_leading_only_counterexample :
    simplify_input (strL "cd1,cd2") = strL "fnddf1,fnddf2" ∧
    strL "fnddf1,fnddf2" ≠ strL "fnddf1,cd2" := by decide

/-- C6 amended: the simplifier special-cases the two textual prefixes "cd"
(when not followed by "s") and "wr", and when the prefix test succeeds it
replaces every occurrence of the token in the string; the stated equalities
CD1 = fnddf1 and WR2 = fff2 hold and "cds1" is left untransformed. -/
theorem cd_wr_rule_amended :
    simplify_input (strL "CD1") = simplify_input (strL "fnddf1") ∧
    simplify_input (strL "WR2") = simplify_input (strL "fff2") ∧
    simplify_input (strL "cds1") = strL "cds1" ∧
    simplify_input (strL "cd1,cd2") = strL "fnddf1,fnddf2" ∧
    simplify_input (strL "wr2wr") = strL "fff2fff" := by decide

/-- C7 counterexample: querying a character whose frame data is absent from
the database raises (models Python `KeyError` from `self.frames[character]`)
in every query operation rather than returning an explicit absence. -/
theorem query_engine_missing_character_counterexample :
    get_move_by_input [] (strL "x") (strL "q") = Except.error Err.keyError ∧
    get_moves_by_move_name [] (strL "x") (strL "q") = Except.error Err.keyError ∧
    get_moves_by_move_input [] (strL "x") (strL "q") = Except.error Err.keyError ∧
    get_move_by_id [] (strL "x") (strL "m1") = Except.error Err.keyError ∧
    get_moves_by_move_type [] (strL "x") (strL "homing") = Except.error Err.keyError ∧
    search_move [] ⟨strL "x", []⟩ (strL "q") = Except.error Err.keyError := by decide

/-- C8 counterexample: resolution is not idempotent — re-running the resolver
on an already-resolved movelist re-applies the parent concatenation, turning
the resolved child input "f+1+2" into "f+1f+1+2". -/
theorem resolve_not_idempotent_counterexample :
    convert_wavu_movelist
      [mkMove (strL "a") (strL "f+1") (strL "s1") [],
       mkMove (strL "b") (strL "+2") (strL "s2") (strL "a")] =
      Except.ok
        [(strL "a", mkMove (strL "a") (strL "f+1") (strL "s1") []),
         (strL "b", mkMove (strL "b") (strL "f+1+2") (strL "s1") (strL "a"))] ∧
    convert_wavu_movelist
      [mkMove (strL "a") (strL "f+1") (strL "s1") [],
       mkMove (strL "b") (strL "f+1+2") (strL "s1") (strL "a")] =
      Except.ok
        [(strL "a", mkMove (strL "a") (strL "f+1") (strL "s1") []),
         (strL "b", mkMove (strL "b") (strL "f+1f+1+2") (strL "s1") (strL "a"))] ∧
    strL "f+1f+1+2" ≠ strL "f+1+2" := by decide


/-- C4: within the exact-input stage the sub-stages run in the order direct
simplified-input equality, then alt membership, then alias membership, each
by string equality of simplified forms; within a sub-stage the first matching
move in enumeration order is returned, and with no match the result is an
explicit `none`. -/
theorem get_move_by_input_stage_order (db : FrameDbT) (c q : Str) (ch : Character)
    (h : alookup db c = some ch) :
    (∀ m rest,
      (movesOf ch).filter (fun e => decide (simplify_input e.input = simplify_input q)) = m :: rest →
      get_move_by_input db c q = Except.ok (some m)) ∧
    ((movesOf ch).filter (fun e => decide (simplify_input e.input = simplify_input q)) = [] →
      ∀ m rest, (movesOf ch).filter (fun m => is_command_in_alt q m) = m :: rest →
      get_move_by_input db c q = Except.ok (some m)) ∧
    ((movesOf ch).filter (fun e => decide (simplify_input e.input = simplify_input q)) = [] →
      (movesOf ch).filter (fun m => is_command_in_alt q m) = [] →
      ∀ m rest, (movesOf ch).filter (fun m => is_command_in_alias q m) = m :: rest →
      get_move_by_input db c q = Except.ok (some m)) ∧
    ((movesOf ch).filter (fun e => decide (simplify_input e.input = simplify_input q)) = [] →
      (movesOf ch).filter (fun m => is_command_in_alt q m) = [] →
      (movesOf ch).filter (fun m => is_command_in_alias q m) = [] →
      get_move_by_input db c q = Except.ok none) := by
  refine ⟨?_, ?_, ?_, ?_⟩
  · intro m rest hf
    simp only [get_move_by_input, h, hf]
  · intro hf1 m rest hf2
    simp only [get_move_by_input, h, hf1, hf2]
  · intro hf1 hf2 m rest hf3
    simp only [get_move_by_input, h, hf1, hf2, hf3]
  · intro hf1 hf2 hf3
    simp only [get_move_by_input, h, hf1, hf2, hf3]

/-- C4 witness: a concrete database on which the first sub-stage fires. -/
theorem get_move_by_input_stage_order_witness :
    get_move_by_input
      [(strL "x", ⟨strL "x", [(strL "m1", mkMove (strL "m1") (strL "f+1") (strL "i10") [])]⟩)]
      (strL "x") (strL "F+1") =
    Except.ok (some (mkMove (strL "m1") (strL "f+1") (strL "i10") [])) := by
  have h :=
    (get_move_by_input_stage_order
      [(strL "x", ⟨strL "x", [(strL "m1", mkMove (strL "m1") (strL "f+1") (strL "i10") [])]⟩)]
      (strL "x") (strL "F+1")
      ⟨strL "x", [(strL "m1", mkMove (strL "m1") (strL "f+1") (strL "i10") [])]⟩ (by decide)).1
  exact h (mkMove (strL "m1") (strL "f+1") (strL "i10") []) [] (by decide)

/-- The fuzzy matcher's validation of `n = 5` and `cutoff = 0.7` always
passes, so `_get_close_matches_indices` never raises at the call site used by
the query engine. -/
theorem get_close_matches_indices_ok (word : Str) (possibilities : List Str) :
    isOkE (get_close_matches_indices 5 (7, 10) word possibilities) := by
  unfold get_close_matches_indices
  rw [if_pos (by decide), if_pos (by decide)]
  exact ⟨_, rfl⟩

/-- C7 amended: for a character present in the frame database, none of the
query-engine operations raises — absence of a match is an explicit `none` or
an empty list.  (For a character absent from the database every operation
raises `KeyError`, refuting the original claim.) -/
theorem query_engine_no_throw_amended (db : FrameDbT) (ch : Character) (c q mid : Str)
    (h : alookup db c = some ch) :
    isOkE (get_move_by_input db c q) ∧
    isOkE (get_moves_by_move_name db c q) ∧
    isOkE (get_moves_by_move_input db c q) ∧
    isOkE (get_move_by_id db c mid) ∧
    isOkE (get_moves_by_move_type db c q) ∧
    (∀ char : Character, char.name = c → isOkE (search_move db char q)) := by
  have hinput : isOkE (get_move_by_input db c q) := by
    simp only [get_move_by_input, h]
    cases (movesOf ch).filter (fun e => decide (simplify_input e.input = simplify_input q)) with
    | cons m rest => exact ⟨some m, rfl⟩
    | nil =>
      cases (movesOf ch).filter (fun m => is_command_in_alt q m) with
      | cons m rest => exact ⟨some m, rfl⟩
      | nil =>
        cases (movesOf ch).filter (fun m => is_command_in_alias q m) with
        | cons m rest => exact ⟨some m, rfl⟩
        | nil => exact ⟨none, rfl⟩
  have hname : isOkE (get_moves_by_move_name db c q) := by
    simp only [get_moves_by_move_name, h]
    exact ⟨_, rfl⟩
  have hfuzzy : isOkE (get_moves_by_move_input db c q) := by
    simp only [get_moves_by_move_input, h]
    obtain ⟨idxs, hidxs⟩ :=
      get_close_matches_indices_ok (simplify_input q)
        (((movesOf ch).map Move.input).map simplify_input)
    rw [hidxs]
    exact ⟨_, rfl⟩
  refine ⟨hinput, hname, hfuzzy, ?_, ?_, ?_⟩
  · simp only [get_move_by_id, h]
    exact ⟨_, rfl⟩
  · simp only [get_moves_by_move_type, h]
    cases correct_move_type q with
    | some mt => exact ⟨_, rfl⟩
    | none => exact ⟨_, rfl⟩
  · intro char hchar
    obtain ⟨v1, hv1⟩ := hinput
    obtain ⟨v2, hv2⟩ := hname
    obtain ⟨v3, hv3⟩ := hfuzzy
    simp only [search_move, hchar, hv1, hv2, hv3, bind, Except.bind]
    cases v1 with
    | some m => exact ⟨_, rfl⟩
    | none =>
      cases v2 with
      | nil =>
        cases v3 with
        | nil => exact ⟨_, rfl⟩
        | cons a t => cases t with
          | nil => exact ⟨_, rfl⟩
          | cons b t2 => exact ⟨_, rfl⟩
      | cons a t => cases t with
        | nil => exact ⟨_, rfl⟩
        | cons b t2 =>
          cases v3 with
          | nil => exact ⟨_, rfl⟩
          | cons a2 t3 => cases t3 with
            | nil => exact ⟨_, rfl⟩
            | cons b2 t4 => exact ⟨_, rfl⟩

/-- C7 amended witness: the operations on a concrete one-character database. -/
theorem query_engine_no_throw_amended_witness :
    isOkE (get_move_by_input
      [(strL "x", ⟨strL "x", [(strL "m1", mkMove (strL "m1") (strL "f+1") (strL "i10") [])]⟩)]
      (strL "x") (strL "q")) := by
  exact (query_engine_no_throw_amended
    [(strL "x", ⟨strL "x", [(strL "m1", mkMove (strL "m1") (strL "f+1") (strL "i10") [])]⟩)]
    ⟨strL "x", [(strL "m1", mkMove (strL "m1") (strL "f+1") (strL "i10") [])]⟩
    (strL "x") (strL "q") (strL "m1") (by decide)).1

/-- C1: `search_move` follows the staged decision rule — an exact-input hit is
returned as a single move; otherwise a unique name-substring candidate;
otherwise a unique fuzzy-input candidate; otherwise the concatenation of the
stage-2 and stage-3 candidate lists.  In particular, when some move's
simplified input equals the simplified query (and is the only such move),
that exact-input move is returned regardless of name matches. -/
theorem search_move_staged (db : FrameDbT) (character : Character) (q : Str)
    (exact0 : Option Move) (names fuzzy : List Move)
    (h1 : get_move_by_input db character.name q = Except.ok exact0)
    (h2 : get_moves_by_move_name db character.name q = Except.ok names)
    (h3 : get_moves_by_move_input db character.name q = Except.ok fuzzy) :
    (∀ m, exact0 = some m → search_move db character q = Except.ok (Sum.inl m)) ∧
    (exact0 = none → ∀ m, names = [m] →
      search_move db character q = Except.ok (Sum.inl m)) ∧
    (exact0 = none → names.length ≠ 1 → ∀ m, fuzzy = [m] →
      search_move db character q = Except.ok (Sum.inl m)) ∧
    (exact0 = none → names.length ≠ 1 → fuzzy.length ≠ 1 →
      search_move db character q = Except.ok (Sum.inr (names ++ fuzzy))) ∧
    (∀ ch, alookup db character.name = some ch →
      ∀ m, m ∈ movesOf ch → simplify_input m.input = simplify_input q →
      (∀ m', m' ∈ movesOf ch → simplify_input m'.input = simplify_input q → m' = m) →
      search_move db character q = Except.ok (Sum.inl m)) := by
  have hbranch1 : ∀ m, exact0 = some m →
      search_move db character q = Except.ok (Sum.inl m) := by
    intro m hm
    subst hm
    simp only [search_move, h1, h2, h3, bind, Except.bind, pure, Except.pure]
  refine ⟨hbranch1, ?_, ?_, ?_, ?_⟩
  · intro hnone m hm
    subst hnone hm
    simp only [search_move, h1, h2, h3, bind, Except.bind, pure, Except.pure]
  · intro hnone hlen m hm
    subst hnone hm
    rcases names with _ | ⟨n1, _ | ⟨n2, nt⟩⟩
    · simp only [search_move, h1, h2, h3, bind, Except.bind, pure, Except.pure]
    · exact absurd rfl hlen
    · simp only [search_move, h1, h2, h3, bind, Except.bind, pure, Except.pure]
  · intro hnone hlen1 hlen2
    subst hnone
    rcases names with _ | ⟨n1, _ | ⟨n2, nt⟩⟩
    · rcases fuzzy with _ | ⟨f1, _ | ⟨f2, ft⟩⟩
      · simp only [search_move, h1, h2, h3, bind, Except.bind, pure, Except.pure,
          List.nil_append]
      · exact absurd rfl hlen2
      · simp only [search_move, h1, h2, h3, bind, Except.bind, pure, Except.pure,
          List.nil_append]
    · exact absurd rfl hlen1
    · rcases fuzzy with _ | ⟨f1, _ | ⟨f2, ft⟩⟩
      · simp only [search_move, h1, h2, h3, bind, Except.bind, pure, Except.pure]
      · exact absurd rfl hlen2
      · simp only [search_move, h1, h2, h3, bind, Except.bind, pure, Except.pure]
  · intro ch hch m hmem heq huniq
    have hexact : exact0 = some m := by
      have hmf : m ∈ (movesOf ch).filter
          (fun e => decide (simplify_input e.input = simplify_input q)) :=
        List.mem_filter.mpr ⟨hmem, by simp [heq]⟩
      rcases hf : (movesOf ch).filter
          (fun e => decide (simplify_input e.input = simplify_input q)) with _ | ⟨m0, rest⟩
      · rw [hf] at hmf
        exact absurd hmf (List.not_mem_nil m)
      · have h1' : get_move_by_input db character.name q = Except.ok (some m0) := by
          simp only [get_move_by_input, hch, hf]
        have hm0 : m0 ∈ (movesOf ch).filter
            (fun e => decide (simplify_input e.input = simplify_input q)) := by
          rw [hf]; exact List.mem_cons_self m0 rest
        have hm0' := List.mem_filter.mp hm0
        have hm0eq : m0 = m :=
          huniq m0 hm0'.1 (by have := hm0'.2; simpa using this)
        rw [h1, hm0eq] at h1'
        exact (Except.ok.injEq _ _).mp h1' ▸ rfl
    exact hbranch1 m hexact

/-- C1 witness: a database with one exact-input move and one name-matching
move; the exact-input move wins. -/
theorem search_move_staged_witness :
    search_move
      [(strL "x", ⟨strL "x",
        [(strL "m1", mkMove (strL "m1") (strL "f+1") (strL "i10") []),
         (strL "m2", { mkMove (strL "m2") (strL "d+2") (strL "i12") [] with
            name := strL "big f+1 punch" })]⟩)]
      ⟨strL "x", []⟩ (strL "f+1") =
    Except.ok (Sum.inl (mkMove (strL "m1") (strL "f+1") (strL "i10") [])) := by
  have h :=
    (search_move_staged
      [(strL "x", ⟨strL "x",
        [(strL "m1", mkMove (strL "m1") (strL "f+1") (strL "i10") []),
         (strL "m2", { mkMove (strL "m2") (strL "d+2") (strL "i12") [] with
            name := strL "big f+1 punch" })]⟩)]
      ⟨strL "x", []⟩ (strL "f+1")
      (some (mkMove (strL "m1") (strL "f+1") (strL "i10") []))
      [{ mkMove (strL "m2") (strL "d+2") (strL "i12") [] with name := strL "big f+1 punch" }]
      [mkMove (strL "m1") (strL "f+1") (strL "i10") []]
      (by decide) (by decide) (by decide)).1
  exact h (mkMove (strL "m1") (strL "f+1") (strL "i10") []) rfl

/-- `buildStore` keys every move under its own id. -/
theorem wf_buildStore (l : List Move) : wfStore (buildStore l) := by
  intro p hp
  simp only [buildStore, List.mem_map] at hp
  obtain ⟨m, _, rfl⟩ := hp
  rfl

/-- The keys of `buildStore` are exactly the ids of the movelist. -/
theorem keysOf_buildStore (l : List Move) : keysOf (buildStore l) = l.map Move.id := by
  simp [keysOf, buildStore, List.map_map, Function.comp]

/-- A successful lookup exhibits a store entry. -/
theorem alookup_mem {β : Type} (st : List (Str × β)) (k : Str) (v : β)
    (h : alookup st k = some v) : (k, v) ∈ st := by
  induction st with
  | nil => simp [alookup] at h
  | cons p rest ih =>
    obtain ⟨k', v'⟩ := p
    rw [alookup] at h
    split at h
    · cases h
      rename_i hk
      subst hk
      exact List.mem_cons_self _ _
    · exact List.mem_cons_of_mem _ (ih h)

/-- A successful lookup's key is among the store's keys. -/
theorem mem_keysOf_of_alookup {β : Type} (st : List (Str × β)) (k : Str) (v : β)
    (h : alookup st k = some v) : k ∈ keysOf st :=
  List.mem_map.mpr ⟨(k, v), alookup_mem st k v h, rfl⟩

/-- Updating one key leaves lookups of other keys unchanged. -/
theorem alookup_aupdate_ne {β : Type} (st : List (Str × β)) (k i : Str) (v : β)
    (hne : i ≠ k) : alookup (aupdate st k v) i = alookup st i := by
  induction st with
  | nil => simp [aupdate]
  | cons p rest ih =>
    obtain ⟨k', v'⟩ := p
    rw [aupdate]
    split
    · rename_i hk
      subst hk
      rw [alookup, alookup, if_neg (fun hh => hne hh.symm), if_neg (fun hh => hne hh.symm)]
    · rw [alookup, alookup]
      split
      · rfl
      · exact ih

/-- Updating a present key makes its lookup return the new value. -/
theorem alookup_aupdate_self {β : Type} (st : List (Str × β)) (k : Str) (v w : β)
    (h : alookup st k = some w) : alookup (aupdate st k v) k = some v := by
  induction st with
  | nil => simp [alookup] at h
  | cons p rest ih =>
    obtain ⟨k', v'⟩ := p
    rw [alookup] at h
    rw [aupdate]
    split
    · rename_i hk
      rw [alookup, if_pos hk]
    · rename_i hk
      rw [alookup, if_neg hk]
      rw [if_neg hk] at h
      exact ih h

/-- Updates do not change the key sequence. -/
theorem keysOf_aupdate {β : Type} (st : List (Str × β)) (k : Str) (v : β) :
    keysOf (aupdate st k v) = keysOf st := by
  induction st with
  | nil => rfl
  | cons p rest ih =>
    obtain ⟨k', v'⟩ := p
    rw [aupdate]
    split
    · rfl
    · simp only [keysOf, List.map_cons]
      rw [show (aupdate rest k v).map (·.1) = keysOf (aupdate rest k v) from rfl, ih]
      rfl

/-- Updates preserve store wellformedness when the new move carries the key. -/
theorem wf_aupdate {st : Store} {k : Str} {v : Move} :
    wfStore st → v.id = k → wfStore (aupdate st k v) := by
  induction st with
  | nil => intro _ _ p hp; simp [aupdate] at hp
  | cons q rest ih =>
    intro hwf hv p hp
    obtain ⟨k', v'⟩ := q
    rw [aupdate] at hp
    split at hp
    · rename_i hk
      rcases List.mem_cons.mp hp with h1 | h2
      · subst h1
        rw [hv, hk]
      · exact hwf _ (List.mem_cons_of_mem _ h2)
    · rcases List.mem_cons.mp hp with h1 | h2
      · subst h1
        exact hwf _ (List.mem_cons_self _ _)
      · exact ih (fun r hr => hwf r (List.mem_cons_of_mem _ hr)) hv p h2

/-- With duplicate-free keys, every entry is found by lookup. -/
theorem alookup_of_mem_nodup (st : Store) (hnd : (keysOf st).Nodup) (p : Str × Move)
    (hp : p ∈ st) : alookup st p.1 = some p.2 := by
  induction st with
  | nil => simp at hp
  | cons q rest ih =>
    rcases List.mem_cons.mp hp with h1 | h2
    · subst h1
      obtain ⟨k', v'⟩ := p
      rw [alookup, if_pos rfl]
    · obtain ⟨k', v'⟩ := q
      have hk : k' ≠ p.1 := by
        intro hk
        have : p.1 ∈ keysOf rest := List.mem_map.mpr ⟨p, h2, rfl⟩
        rw [← hk] at this
        exact (List.nodup_cons.mp hnd).1 this
      rw [alookup, if_neg hk]
      exact ih (List.nodup_cons.mp hnd).2 h2

/-- The walk only grows the seen set. -/
theorem walkAux_seen_mono (store : Store) :
    ∀ fuel curr seen stack w, walkAux store fuel curr seen stack = some (Except.ok w) →
    seen ⊆ w.seen := by
  intro fuel
  induction fuel with
  | zero => intro curr seen stack w h; simp [walkAux] at h
  | succ f ih =>
    intro curr seen stack w h
    rw [walkAux] at h
    split at h
    · simp only [Option.some.injEq, Except.ok.injEq] at h
      subst h
      exact fun a ha => ha
    · split at h
      · simp at h
      · exact fun a ha => ih _ _ _ _ h (List.mem_insert_of_mem ha)

/-- Every id pushed on the walk's stack was unseen at the start of the walk
(or already on the incoming stack). -/
theorem walkAux_stack_fresh (store : Store) :
    ∀ fuel curr seen stack w, walkAux store fuel curr seen stack = some (Except.ok w) →
    ∀ i ∈ w.stack, i ∈ stack ∨ i ∉ seen := by
  intro fuel
  induction fuel with
  | zero => intro curr seen stack w h; simp [walkAux] at h
  | succ f ih =>
    intro curr seen stack w h
    rw [walkAux] at h
    split at h
    · simp only [Option.some.injEq, Except.ok.injEq] at h
      subst h
      exact fun i hi => Or.inl hi
    · rename_i hguard
      have hunseen : curr.id ∉ seen := fun hmem => hguard (Or.inr hmem)
      split at h
      · simp at h
      · intro i hi
        rcases ih _ _ _ _ h i hi with hin | hout
        · rcases List.mem_cons.mp hin with h1 | h2
          · subst h1
            exact Or.inr hunseen
          · exact Or.inl h2
        · exact Or.inr (fun hmem => hout (List.mem_insert_of_mem hmem))

/-- The starting move's id ends up seen (either as a pushed id or as the
root marked at line 195). -/
theorem walkAux_marks (store : Store) :
    ∀ fuel curr seen stack w, walkAux store fuel curr seen stack = some (Except.ok w) →
    curr.id ∈ List.insert w.root.id w.seen := by
  intro fuel
  induction fuel with
  | zero => intro curr seen stack w h; simp [walkAux] at h
  | succ f ih =>
    intro curr seen stack w h
    rw [walkAux] at h
    split at h
    · simp only [Option.some.injEq, Except.ok.injEq] at h
      subst h
      exact List.mem_insert_self _ _
    · split at h
      · simp at h
      · have hsub := walkAux_seen_mono store _ _ _ _ _ h
        exact List.mem_insert_of_mem (hsub (List.mem_insert_self _ _))

/-- The walk only fails with `keyError`. -/
theorem walkAux_no_fuel_error (store : Store) :
    ∀ fuel curr seen stack e, walkAux store fuel curr seen stack = some (Except.error e) →
    e = Err.keyError := by
  intro fuel
  induction fuel with
  | zero => intro curr seen stack e h; simp [walkAux] at h
  | succ f ih =>
    intro curr seen stack e h
    rw [walkAux] at h
    split at h
    · simp at h
    · split at h
      · simp only [Option.some.injEq, Except.error.injEq] at h
        exact h.symm
      · exact ih _ _ _ _ h

/-- Filtering with a logically stronger predicate that excludes a present
element yields a strictly shorter list. -/
theorem filter_length_lt {α : Type} (l : List α) (p q : α → Bool)
    (himp : ∀ a, q a = true → p a = true) (a0 : α) (ha0 : a0 ∈ l)
    (hp : p a0 = true) (hq : q a0 = false) :
    (l.filter q).length < (l.filter p).length := by
  induction l with
  | nil => simp at ha0
  | cons x xs ih =>
    have hmono : (xs.filter q).length ≤ (xs.filter p).length := by
      clear ih ha0
      induction xs with
      | nil => simp
      | cons y ys ih2 =>
        by_cases hqy : q y = true
        · have hpy := himp y hqy
          simp only [List.filter_cons, hqy, hpy, List.length_cons]
          exact Nat.succ_le_succ ih2
        · rw [List.filter_cons, List.filter_cons]
          rw [Bool.not_eq_true] at hqy
          rw [hqy]
          cases hpy : p y
          · exact ih2
          · simpa using Nat.le_succ_of_le ih2
    rcases List.mem_cons.mp ha0 with rfl | hmem
    · simp only [List.filter_cons, hp, hq, List.length_cons]
      exact Nat.lt_succ_of_le hmono
    · by_cases hqx : q x = true
      · have hpx := himp x hqx
        simp only [List.filter_cons, hqx, hpx, List.length_cons]
        exact Nat.succ_lt_succ (ih hmem)
      · rw [List.filter_cons, List.filter_cons]
        rw [Bool.not_eq_true] at hqx
        rw [hqx]
        cases hpx : p x
        · exact ih hmem
        · simpa using Nat.lt_succ_of_lt (ih hmem)

/-- Marking an unseen present key strictly decreases the termination measure. -/
theorem unseenCount_insert_lt (store : Store) (seen : List Str) (k : Str)
    (hk : k ∈ keysOf store) (hmem : k ∉ seen) :
    unseenCount store (List.insert k seen) < unseenCount store seen := by
  apply filter_length_lt (keysOf store)
    (fun k' => decide (k' ∉ seen)) (fun k' => decide (k' ∉ List.insert k seen))
  · intro a ha
    rw [decide_eq_true_eq] at ha
    rw [decide_eq_true_eq]
    exact fun hs => ha (List.mem_insert_of_mem hs)
  · exact hk
  · rw [decide_eq_true_eq]
    exact hmem
  · rw [decide_eq_false_iff_not]
    intro hfalse
    exact hfalse (List.mem_insert_self _ _)

/-- With fuel exceeding the number of unseen keys, the walk cannot run out. -/
theorem walkAux_ne_none (store : Store) :
    ∀ fuel curr seen stack, wfStore store → curr.id ∈ keysOf store →
    unseenCount store seen < fuel → walkAux store fuel curr seen stack ≠ none := by
  intro fuel
  induction fuel with
  | zero => intro curr seen stack _ _ hlt; exact absurd hlt (Nat.not_lt_zero _)
  | succ f ih =>
    intro curr seen stack hwf hkeys hlt
    rw [walkAux]
    split
    · simp
    · rename_i hguard
      have hunseen : curr.id ∉ seen := fun hmem => hguard (Or.inr hmem)
      split
      · simp
      · rename_i next hnext
        apply ih
        · exact hwf
        · have hmem := alookup_mem store curr.parent next hnext
          have := hwf _ hmem
          exact List.mem_map.mpr ⟨(curr.parent, next), hmem, this.symm⟩
        · have hdec := unseenCount_insert_lt store seen curr.id hkeys hunseen
          exact Nat.lt_of_lt_of_le hdec (Nat.lt_succ_iff.mp hlt)

/-- The pop loop preserves wellformedness and keys, grows the seen set, and
touches only the ids on the stack. -/
theorem popLoop_ok_spec :
    ∀ (stack : List Str) (store : Store) (seen : List Str) (pin ptar pdmg rstart : Str)
      (store' : Store) (seen' : List Str), wfStore store →
    popLoop stack store seen pin ptar pdmg rstart = Except.ok (store', seen') →
    wfStore store' ∧ keysOf store' = keysOf store ∧ seen ⊆ seen' ∧
      (∀ i, i ∉ stack → alookup store' i = alookup store i) := by
  intro stack
  induction stack with
  | nil =>
    intro store seen pin ptar pdmg rstart store' seen' hwf h
    rw [popLoop] at h
    simp only [Except.ok.injEq, Prod.mk.injEq] at h
    obtain ⟨h1, h2⟩ := h
    subst h1 h2
    exact ⟨hwf, rfl, fun a ha => ha, fun i _ => rfl⟩
  | cons mid rest ih =>
    intro store seen pin ptar pdmg rstart store' seen' hwf h
    rw [popLoop] at h
    split at h
    · simp at h
    · rename_i m hm
      have hmid : m.id = mid := hwf _ (alookup_mem store mid m hm)
      have hwf2 : wfStore (aupdate store mid
          { m with input := pin ++ m.input, target := ptar ++ m.target,
                   damage := pdmg ++ m.damage, startup := rstart }) :=
        wf_aupdate hwf hmid
      obtain ⟨hwf', hkeys', hseen', hlook'⟩ := ih _ _ _ _ _ _ _ _ hwf2 h
      refine ⟨hwf', hkeys'.trans (keysOf_aupdate _ _ _), ?_, ?_⟩
      · intro a ha
        apply hseen'
        rw [hmid]
        exact List.mem_insert_of_mem ha
      · intro i hi
        have hir : i ∉ rest := fun hr => hi (List.mem_cons_of_mem _ hr)
        have him : i ≠ mid := fun he => hi (he ▸ List.mem_cons_self _ _)
        rw [hlook' i hir, alookup_aupdate_ne _ _ _ _ him]

/-- The pop loop only fails with `keyError`. -/
theorem popLoop_no_fuel_error :
    ∀ (stack : List Str) (store : Store) (seen : List Str) (pin ptar pdmg rstart : Str) (e : Err),
    popLoop stack store seen pin ptar pdmg rstart = Except.error e → e = Err.keyError := by
  intro stack
  induction stack with
  | nil =>
    intro store seen pin ptar pdmg rstart e h
    simp [popLoop] at h
  | cons mid rest ih =>
    intro store seen pin ptar pdmg rstart e h
    rw [popLoop] at h
    split at h
    · simp only [Except.error.injEq] at h
      exact h.symm
    · exact ih _ _ _ _ _ _ _ h

/-- The first segment of a split contains no separator. -/
theorem splitOnChar_headI_not_mem (c : Char) (s : Str) : c ∉ (splitOnChar c s).headI := by
  induction s with
  | nil => simp [splitOnChar]
  | cons x xs ih =>
    rw [splitOnChar]
    by_cases hx : x = c
    · simp [hx]
    · simp only [hx, if_false]
      intro hmem
      rcases List.mem_cons.mp hmem with h1 | h2
      · exact hx h1.symm
      · exact ih h2

/-- The canonical input produced by `_create_aliases` is separator-free. -/
theorem create_aliases_fst_no_sep (s : Str) : '_' ∉ (create_aliases s).1 :=
  splitOnChar_headI_not_mem '_' s

/-- Specification of one resolver iteration: wellformedness and keys are
preserved, the seen set grows and gains the processed id, entries of seen ids
other than the processed one are untouched, and the processed id's stored
input ends separator-free. -/
theorem process_move_ok_spec (st : Store × List Str) (mid : Str) (st' : Store × List Str)
    (hwf : wfStore st.1) (h : process_move st mid = Except.ok st') :
    wfStore st'.1 ∧ keysOf st'.1 = keysOf st.1 ∧ st.2 ⊆ st'.2 ∧ mid ∈ st'.2 ∧
      (∀ k, k ∈ st.2 → k ≠ mid → alookup st'.1 k = alookup st.1 k) ∧
      (∀ m, alookup st'.1 mid = some m → '_' ∉ m.input) := by
  unfold process_move at h
  split at h
  · simp at h
  · rename_i m0 hm0
    split at h
    · simp at h
    · simp at h
    · rename_i w hw
      have hm0id : m0.id = mid := hwf _ (alookup_mem _ _ _ hm0)
      have hseenw : st.2 ⊆ w.seen := walkAux_seen_mono _ _ _ _ _ _ hw
      have hfresh := walkAux_stack_fresh _ _ _ _ _ _ hw
      have hmark : mid ∈ List.insert w.root.id w.seen := hm0id ▸ walkAux_marks _ _ _ _ _ _ hw
      split at h
      · simp at h
      · rename_i store2 seen2 hpop
        obtain ⟨hwf2, hkeys2, hseen2, hlook2⟩ := popLoop_ok_spec _ _ _ _ _ _ _ _ _ hwf hpop
        have hnostack : ∀ k, k ∈ st.2 → k ∉ w.stack := by
          intro k hk hks
          rcases hfresh k hks with h1 | h2
          · exact (List.not_mem_nil k) h1
          · exact h2 hk
        split at h
        · simp at h
        · rename_i mfin hmfin
          have hmfid : mfin.id = mid := hwf2 _ (alookup_mem _ _ _ hmfin)
          split at h
          · rename_i hsep
            simp only [Except.ok.injEq] at h
            subst h
            refine ⟨wf_aupdate hwf2 hmfid, (keysOf_aupdate _ _ _).trans hkeys2, ?_, ?_, ?_, ?_⟩
            · exact fun a ha => hseen2 (List.mem_insert_of_mem (hseenw ha))
            · exact hseen2 hmark
            · intro k hk hkne
              rw [alookup_aupdate_ne _ _ _ _ hkne]
              exact hlook2 k (hnostack k hk)
            · intro m hm
              rw [alookup_aupdate_self _ _ _ _ hmfin] at hm
              cases hm
              exact create_aliases_fst_no_sep _
          · rename_i hsep
            simp only [Except.ok.injEq] at h
            subst h
            refine ⟨hwf2, hkeys2, ?_, ?_, ?_, ?_⟩
            · exact fun a ha => hseen2 (List.mem_insert_of_mem (hseenw ha))
            · exact hseen2 hmark
            · intro k hk hkne
              exact hlook2 k (hnostack k hk)
            · intro m hm
              rw [hmfin] at hm
              cases hm
              exact hsep

/-- One resolver iteration never reports fuel exhaustion on a wellformed
store: the walk marks an unseen key at every step, so the store size bounds
its length. -/
theorem process_move_no_fuel_error (st : Store × List Str) (mid : Str)
    (hwf : wfStore st.1) : process_move st mid ≠ Except.error Err.fuelError := by
  intro h
  unfold process_move at h
  split at h
  · simp at h
  · rename_i m0 hm0
    split at h
    · rename_i hwalk
      have hm0id : m0.id = mid := hwf _ (alookup_mem _ _ _ hm0)
      have hkeys : m0.id ∈ keysOf st.1 :=
        hm0id ▸ mem_keysOf_of_alookup _ _ _ hm0
      have hbound : unseenCount st.1 st.2 < st.1.length + 1 := by
        have h1 : unseenCount st.1 st.2 ≤ (keysOf st.1).length :=
          List.length_filter_le _ _
        have h2 : (keysOf st.1).length = st.1.length := List.length_map _ _
        exact Nat.lt_succ_of_le (h2 ▸ h1)
      exact walkAux_ne_none st.1 _ m0 st.2 [] hwf hkeys hbound hwalk
    · rename_i e hwalk
      have := walkAux_no_fuel_error st.1 _ _ _ _ _ hwalk
      simp only [Except.error.injEq] at h
      rw [this] at h
      exact absurd h.symm (by simp)
    · rename_i w hw
      split at h
      · rename_i e hpop
        have := popLoop_no_fuel_error _ _ _ _ _ _ _ _ hpop
        simp only [Except.error.injEq] at h
        rw [this] at h
        exact absurd h.symm (by simp)
      · rename_i store2 seen2 hpop
        split at h
        · simp at h
        · rename_i mfin hmfin
          split at h
          · simp at h
          · simp at h

/-- C9: the Move Graph Resolver terminates on every finite movelist — the
upward walk stops at an empty parent or an already-seen move, so the fuel
bound of the embedding is never reached — and it fully processes a concrete
cyclic pair of parent pointers. -/
theorem resolver_terminates :
    (∀ l : List Move, convert_wavu_movelist l ≠ Except.error Err.fuelError) ∧
    (convert_wavu_movelist
      [mkMove (strL "a") (strL "1") (strL "s1") (strL "b"),
       mkMove (strL "b") (strL "2") (strL "s2") (strL "a")]).isOk = true := by
  constructor
  · intro l
    have hfold : ∀ (todo : List Move) (acc : Store × List Str), wfStore acc.1 →
        todo.foldlM (fun st m => process_move st m.id) acc ≠ Except.error Err.fuelError := by
      intro todo
      induction todo with
      | nil => intro acc _ h; simp [List.foldlM, pure, Except.pure] at h
      | cons m rest ih =>
        intro acc hwf h
        rw [List.foldlM_cons] at h
        cases hp : process_move acc m.id with
        | error e =>
          rw [hp] at h
          simp only [bind, Except.bind] at h
          cases h
          exact process_move_no_fuel_error acc m.id hwf hp
        | ok st1 =>
          rw [hp] at h
          simp only [bind, Except.bind] at h
          exact ih st1 (process_move_ok_spec acc m.id st1 hwf hp).1 h
    intro h
    unfold convert_wavu_movelist at h
    cases hf : List.foldlM (fun st m => process_move st m.id) (buildStore l, ([] : List Str)) l with
    | error e =>
      rw [hf] at h
      simp only [bind, Except.bind] at h
      cases h
      exact hfold l (buildStore l, []) (wf_buildStore l) hf
    | ok st =>
      rw [hf] at h
      simp [bind, Except.bind, pure, Except.pure] at h
  · decide

/-- Folding the resolver over a movelist keeps the store wellformed, keeps its
keys, and leaves every already-processed id (and each newly processed id)
with a separator-free stored input. -/
theorem convert_fold_sep :
    ∀ (todo : List Move) (acc : Store × List Str) (R : List Str) (st' : Store × List Str),
    wfStore acc.1 → (∀ k ∈ R, k ∈ acc.2) → noSep acc.1 R →
    todo.foldlM (fun st m => process_move st m.id) acc = Except.ok st' →
    wfStore st'.1 ∧ keysOf st'.1 = keysOf acc.1 ∧ noSep st'.1 (R ++ todo.map Move.id) := by
  intro todo
  induction todo with
  | nil =>
    intro acc R st' hwf _ hnosep h
    simp only [List.foldlM, pure, Except.pure, Except.ok.injEq] at h
    subst h
    refine ⟨hwf, rfl, ?_⟩
    simpa using hnosep
  | cons m rest ih =>
    intro acc R st' hwf hRseen hnosep h
    rw [List.foldlM_cons] at h
    cases hp : process_move acc m.id with
    | error e =>
      rw [hp] at h
      simp [bind, Except.bind] at h
    | ok st1 =>
      rw [hp] at h
      simp only [bind, Except.bind] at h
      obtain ⟨hwf1, hkeys1, hseen1, hmid1, hlook1, hnew1⟩ :=
        process_move_ok_spec acc m.id st1 hwf hp
      have hRseen' : ∀ k ∈ R ++ [m.id], k ∈ st1.2 := by
        intro k hk
        rcases List.mem_append.mp hk with h1 | h2
        · exact hseen1 (hRseen k h1)
        · rw [List.mem_singleton.mp h2]
          exact hmid1
      have hnosep' : noSep st1.1 (R ++ [m.id]) := by
        intro k hk mm hmm
        rcases List.mem_append.mp hk with h1 | h2
        · by_cases hke : k = m.id
          · exact hnew1 mm (hke ▸ hmm)
          · rw [hlook1 k (hRseen k h1) hke] at hmm
            exact hnosep k h1 mm hmm
        · rw [List.mem_singleton.mp h2] at hmm
          exact hnew1 mm hmm
      obtain ⟨hwf', hkeys', hnosep''⟩ := ih st1 (R ++ [m.id]) st' hwf1 hRseen' hnosep' h
      refine ⟨hwf', hkeys'.trans hkeys1, ?_⟩
      have : R ++ [m.id] ++ rest.map Move.id = R ++ (m :: rest).map Move.id := by
        simp
      rw [← this]
      exact hnosep''

/-- C10: after resolution every move stored in the output mapping has a
separator-free canonical input — any "_" present in an expanded input has been
split away by `_create_aliases`. -/
theorem resolved_inputs_separator_free (l : List Move) (hnd : (l.map Move.id).Nodup)
    (st : Store) (h : convert_wavu_movelist l = Except.ok st) :
    ∀ p ∈ st, '_' ∉ (p.2 : Move).input := by
  unfold convert_wavu_movelist at h
  cases hf : List.foldlM (fun st m => process_move st m.id) (buildStore l, ([] : List Str)) l with
  | error e =>
    rw [hf] at h
    simp [bind, Except.bind] at h
  | ok stP =>
    rw [hf] at h
    simp only [bind, Except.bind, pure, Except.pure, Except.ok.injEq] at h
    subst h
    obtain ⟨hwf, hkeys, hnosep⟩ :=
      convert_fold_sep l (buildStore l, []) [] stP (wf_buildStore l)
        (fun k hk => absurd hk (List.not_mem_nil k)) (fun k hk => absurd hk (List.not_mem_nil k))
        hf
    intro p hp
    have hkeq : keysOf stP.1 = l.map Move.id := by
      rw [hkeys, keysOf_buildStore]
    have hfound : alookup stP.1 p.1 = some p.2 :=
      alookup_of_mem_nodup stP.1 (hkeq ▸ hnd) p hp
    have hkmem : p.1 ∈ l.map Move.id := by
      rw [← hkeq]
      exact List.mem_map.mpr ⟨p, hp, rfl⟩
    exact hnosep p.1 (by simpa using hkmem) p.2 hfound

/-- C10 witness: a concrete movelist whose single move carries a separator;
the resolved store's entry is separator-free. -/
theorem resolved_inputs_separator_free_witness :
    convert_wavu_movelist [mkMove (strL "a") (strL "1_2") (strL "s") []] =
      Except.ok [(strL "a",
        { mkMove (strL "a") (strL "1") (strL "s") [] with aliases := [strL "2"] })] ∧
    '_' ∉ ({ mkMove (strL "a") (strL "1") (strL "s") [] with aliases := [strL "2"] } : Move).input := by
  constructor
  · decide
  · exact resolved_inputs_separator_free [mkMove (strL "a") (strL "1_2") (strL "s") []]
      (by decide)
      [(strL "a", { mkMove (strL "a") (strL "1") (strL "s") [] with aliases := [strL "2"] })]
      (by decide)
      (strL "a", { mkMove (strL "a") (strL "1") (strL "s") [] with aliases := [strL "2"] })
      (by decide)

/-- A key among the store's keys is found by lookup. -/
theorem alookup_isSome_of_mem_keys {β : Type} (st : List (Str × β)) (k : Str)
    (hk : k ∈ keysOf st) : ∃ v, alookup st k = some v := by
  induction st with
  | nil => simp [keysOf] at hk
  | cons p rest ih =>
    obtain ⟨k', v'⟩ := p
    by_cases hke : k' = k
    · exact ⟨v', by rw [alookup, if_pos hke]⟩
    · have : k ∈ keysOf rest := by
        rcases List.mem_cons.mp hk with h1 | h2
        · exact absurd h1.symm hke
        · exact h2
      obtain ⟨v, hv⟩ := ih this
      exact ⟨v, by rw [alookup, if_neg hke]; exact hv⟩

/-- Entries of `buildStore` are members of the movelist carrying the key id. -/
theorem alookup_buildStore_props (l : List Move) (k : Str) (v : Move)
    (h : alookup (buildStore l) k = some v) : v ∈ l ∧ v.id = k := by
  have hm := alookup_mem _ _ _ h
  simp only [buildStore, List.mem_map, Prod.mk.injEq] at hm
  obtain ⟨m, hml, hid, hvm⟩ := hm
  subst hvm
  exact ⟨hml, hid⟩

/-- On a parent-free, separator-free movelist one resolver iteration leaves
the store untouched and only marks the move seen. -/
theorem process_move_parent_free (l : List Move) (seen : List Str) (mid : Str)
    (hmem : mid ∈ l.map Move.id)
    (hall : ∀ m' ∈ l, m'.parent = [] ∧ '_' ∉ m'.input) :
    ∃ seen', process_move (buildStore l, seen) mid = Except.ok (buildStore l, seen') := by
  have hk : mid ∈ keysOf (buildStore l) := by rw [keysOf_buildStore]; exact hmem
  obtain ⟨v, hv⟩ := alookup_isSome_of_mem_keys (buildStore l) mid hk
  obtain ⟨hvl, hvid⟩ := alookup_buildStore_props l mid v hv
  obtain ⟨hpar, hsep⟩ := hall v hvl
  have hwalk : walkAux (buildStore l) ((buildStore l).length + 1) v seen [] =
      some (Except.ok ⟨[], seen, v⟩) := by
    rw [walkAux, if_pos (Or.inl hpar)]
  refine ⟨List.insert v.id seen, ?_⟩
  simp only [process_move, hv, hwalk, popLoop]
  rw [if_neg hsep]

/-- C8 amended: resolution is deterministic (re-running it from the same raw
data gives the same output), and re-applying it is not a no-op in general —
parent concatenation is re-applied.  In particular it is a no-op whenever
every move has an empty parent and a separator-free input: such a movelist
is returned unchanged, so a second application returns the same store again. -/
theorem resolve_noop_parent_free (l : List Move)
    (hall : ∀ m ∈ l, m.parent = [] ∧ '_' ∉ m.input) :
    convert_wavu_movelist l = Except.ok (buildStore l) ∧
    (buildStore l).map Prod.snd = l := by
  constructor
  · have hfold : ∀ (todo : List Move) (seen : List Str), (∀ m ∈ todo, m ∈ l) →
        ∃ seen', todo.foldlM (fun st m => process_move st m.id) (buildStore l, seen) =
          Except.ok (buildStore l, seen') := by
      intro todo
      induction todo with
      | nil =>
        intro seen _
        exact ⟨seen, by simp [List.foldlM, pure, Except.pure]⟩
      | cons m rest ih =>
        intro seen hsub
        have hmem : m.id ∈ l.map Move.id :=
          List.mem_map.mpr ⟨m, hsub m (List.mem_cons_self _ _), rfl⟩
        obtain ⟨seen1, hp⟩ := process_move_parent_free l seen m.id hmem hall
        obtain ⟨seen', hrest⟩ := ih seen1 (fun m' hm' => hsub m' (List.mem_cons_of_mem _ hm'))
        refine ⟨seen', ?_⟩
        rw [List.foldlM_cons, hp]
        simpa [bind, Except.bind] using hrest
    obtain ⟨seenF, hF⟩ := hfold l [] (fun m hm => hm)
    unfold convert_wavu_movelist
    rw [hF]
    simp [bind, Except.bind, pure, Except.pure]
  · rw [buildStore, List.map_map]
    exact List.map_id l

/-- C8 amended witness: a concrete parent-free movelist resolves to itself. -/
theorem resolve_noop_parent_free_witness :
    convert_wavu_movelist
      [mkMove (strL "a") (strL "f+1") (strL "s1") [],
       mkMove (strL "b") (strL "d+2") (strL "s2") []] =
      Except.ok
        (buildStore
          [mkMove (strL "a") (strL "f+1") (strL "s1") [],
           mkMove (strL "b") (strL "d+2") (strL "s2") []]) :=
  (resolve_noop_parent_free
    [mkMove (strL "a") (strL "f+1") (strL "s1") [],
     mkMove (strL "b") (strL "d+2") (strL "s2") []]
    (by decide)).1

/-- The descending pair order is total. -/
theorem pOrd_total (x y : Frac × Nat) : pOrd x y ∨ pOrd y x := by
  unfold pOrd fracGt fracEq
  rcases Nat.lt_trichotomy (y.1.1 * x.1.2) (x.1.1 * y.1.2) with h | h | h
  · exact Or.inl (Or.inl h)
  · rcases Nat.le_total y.2 x.2 with h2 | h2
    · exact Or.inl (Or.inr ⟨h, h2⟩)
    · exact Or.inr (Or.inr ⟨h.symm, h2⟩)
  · exact Or.inr (Or.inl h)

/-- A larger pair also has a score at least as large. -/
theorem pOrd_fracGe (x y : Frac × Nat) (h : pOrd x y) : fracGe x.1 y.1 := by
  rcases h with h | h
  · exact Nat.le_of_lt h
  · exact Nat.le_of_eq h.1

/-- Members of an insertion are the inserted pair or prior members. -/
theorem mem_insertDesc (p a : Frac × Nat) : ∀ l, a ∈ insertDesc p l → a = p ∨ a ∈ l := by
  intro l
  induction l with
  | nil => intro h; rw [insertDesc] at h; exact Or.inl (List.mem_singleton.mp h)
  | cons q qs ih =>
    intro h
    rw [insertDesc] at h
    split at h
    · rcases List.mem_cons.mp h with h1 | h2
      · exact Or.inl h1
      · exact Or.inr h2
    · rcases List.mem_cons.mp h with h1 | h2
      · exact Or.inr (h1 ▸ List.mem_cons_self _ _)
      · rcases ih h2 with h3 | h4
        · exact Or.inl h3
        · exact Or.inr (List.mem_cons_of_mem _ h4)

/-- Members of the sorted list are members of the input. -/
theorem mem_sortDesc (a : Frac × Nat) : ∀ l, a ∈ sortDesc l → a ∈ l := by
  intro l
  induction l with
  | nil => intro h; simp [sortDesc] at h
  | cons x xs ih =>
    intro h
    rcases mem_insertDesc x a (sortDesc xs) h with h1 | h2
    · exact h1 ▸ List.mem_cons_self _ _
    · exact List.mem_cons_of_mem _ (ih h2)

/-- Insertion preserves the descending consecutive ordering. -/
theorem chain'_insertDesc (p : Frac × Nat) :
    ∀ l, List.Chain' pOrd l → List.Chain' pOrd (insertDesc p l) := by
  intro l
  induction l with
  | nil => intro _; rw [insertDesc]; exact List.chain'_singleton p
  | cons q qs ih =>
    intro hch
    rw [insertDesc]
    split
    · rename_i hpq
      exact hch.cons hpq
    · rename_i hpq
      have hqp : pOrd q p := (pOrd_total p q).resolve_left hpq
      have hch' := ih hch.tail
      apply List.chain'_cons'.mpr
      refine ⟨?_, hch'⟩
      intro y hy
      cases qs with
      | nil =>
        rw [insertDesc] at hy
        simp only [List.head?_cons, Option.mem_def, Option.some.injEq] at hy
        subst hy
        exact hqp
      | cons r rs =>
        rw [insertDesc] at hy
        split at hy
        · simp only [List.head?_cons, Option.mem_def, Option.some.injEq] at hy
          subst hy
          exact hqp
        · simp only [List.head?_cons, Option.mem_def, Option.some.injEq] at hy
          subst hy
          exact (List.chain'_cons.mp hch).1

/-- The sorted candidate list is in descending consecutive order. -/
theorem chain'_sortDesc : ∀ l, List.Chain' pOrd (sortDesc l) := by
  intro l
  induction l with
  | nil => exact List.chain'_nil
  | cons x xs ih => exact chain'_insertDesc x (sortDesc xs) ih

/-- Membership in the enumeration pins the index and the element. -/
theorem enumFrom_mem_getElem {α : Type} :
    ∀ (l : List α) (i : Nat) (p : Nat × α), p ∈ enumFrom i l →
    i ≤ p.1 ∧ l[p.1 - i]? = some p.2 := by
  intro l
  induction l with
  | nil => intro i p h; simp [enumFrom] at h
  | cons a t ih =>
    intro i p h
    rw [enumFrom] at h
    rcases List.mem_cons.mp h with h1 | h2
    · subst h1
      simp
    · obtain ⟨hle, hget⟩ := ih (i + 1) p h2
      refine ⟨Nat.le_of_succ_le hle, ?_⟩
      have heq : p.1 - i = (p.1 - (i + 1)) + 1 := by omega
      rw [heq]
      simpa using hget

/-- Lift a consecutive ordering through a filterMap that is total on the
list, using memberships. -/
theorem chain'_filterMap_total {α β : Type} (f : α → Option β) (R : α → α → Prop)
    (S : β → β → Prop) :
    ∀ (l : List α), (∀ a ∈ l, ∃ b, f a = some b) →
    (∀ a, a ∈ l → ∀ a' , a' ∈ l → ∀ b b', R a a' → f a = some b → f a' = some b' → S b b') →
    List.Chain' R l → List.Chain' S (l.filterMap f) := by
  intro l
  induction l with
  | nil => intro _ _ _; simp
  | cons a t ih =>
    intro htot hrel hch
    obtain ⟨b, hb⟩ := htot a (List.mem_cons_self _ _)
    rw [List.filterMap_cons, hb]
    cases t with
    | nil => simp
    | cons a' t2 =>
      obtain ⟨b', hb'⟩ := htot a' (List.mem_cons_of_mem _ (List.mem_cons_self _ _))
      have hrest : List.Chain' S ((a' :: t2).filterMap f) :=
        ih (fun x hx => htot x (List.mem_cons_of_mem _ hx))
          (fun x hx y hy => hrel x (List.mem_cons_of_mem _ hx) y (List.mem_cons_of_mem _ hy))
          hch.tail
      rw [List.filterMap_cons, hb'] at hrest ⊢
      apply List.chain'_cons.mpr
      refine ⟨?_, hrest⟩
      exact hrel a (List.mem_cons_self _ _) a' (List.mem_cons_of_mem _ (List.mem_cons_self _ _))
        b b' (List.chain'_cons.mp hch).1 hb hb'

/-- Taking a prefix preserves a consecutive ordering. -/
theorem chain'_take {α : Type} {R : α → α → Prop} :
    ∀ (l : List α) (n : Nat), List.Chain' R l → List.Chain' R (l.take n) := by
  intro l
  induction l with
  | nil => intro n _; simp
  | cons a t ih =>
    intro n hch
    cases n with
    | zero => simp
    | succ n' =>
      rw [List.take_succ_cons]
      apply List.chain'_cons'.mpr
      refine ⟨?_, ih n' hch.tail⟩
      intro y hy
      cases t with
      | nil => simp at hy
      | cons b t2 =>
        cases n' with
        | zero => simp at hy
        | succ n2 =>
          rw [List.take_succ_cons] at hy
          simp only [List.head?_cons, Option.mem_def, Option.some.injEq] at hy
          subst hy
          exact (List.chain'_cons.mp hch).1

/-- Pointwise strengthening of a consecutive ordering using memberships. -/
theorem chain'_imp_mem {α : Type} {R S : α → α → Prop} :
    ∀ (l : List α), (∀ a ∈ l, ∀ b ∈ l, R a b → S a b) → List.Chain' R l →
    List.Chain' S l := by
  intro l
  induction l with
  | nil => intro _ _; exact List.chain'_nil
  | cons a t ih =>
    intro himp hch
    cases t with
    | nil => exact List.chain'_singleton a
    | cons b t2 =>
      rw [List.chain'_cons] at hch ⊢
      refine ⟨himp a (List.mem_cons_self _ _)
        b (List.mem_cons_of_mem _ (List.mem_cons_self _ _)) hch.1, ?_⟩
      exact ih (fun x hx y hy => himp x (List.mem_cons_of_mem _ hx) y (List.mem_cons_of_mem _ hy))
        hch.2

/-- Specification of `_get_close_matches_indices` at the query engine's call
site: at most 5 indices, every returned index passes all three ratio gates at
cutoff 0.7, and consecutive indices are ordered by non-increasing full ratio. -/
theorem get_close_matches_spec (word : Str) (poss : List Str) (idxs : List Nat)
    (h : get_close_matches_indices 5 (7, 10) word poss = Except.ok idxs) :
    idxs.length ≤ 5 ∧
    (∀ i ∈ idxs, ∃ x, poss[i]? = some x ∧
      fracGe (real_quick_ratio x word) (7, 10) ∧ fracGe (quick_ratio x word) (7, 10) ∧
      fracGe (ratio x word) (7, 10)) ∧
    List.Chain' (fun i j => ∀ x y, poss[i]? = some x → poss[j]? = some y →
      fracGe (ratio x word) (ratio y word)) idxs := by
  unfold get_close_matches_indices at h
  rw [if_pos (by decide), if_pos (by decide)] at h
  simp only [Except.ok.injEq] at h
  subst h
  have hInv : ∀ p ∈ (enumFrom 0 poss).filterMap (fun p =>
      if fracGe (real_quick_ratio p.2 word) (7, 10) ∧ fracGe (quick_ratio p.2 word) (7, 10) ∧
          fracGe (ratio p.2 word) (7, 10) then some (ratio p.2 word, p.1) else none),
      ∃ x, poss[p.2]? = some x ∧ p.1 = ratio x word ∧
        fracGe (real_quick_ratio x word) (7, 10) ∧ fracGe (quick_ratio x word) (7, 10) ∧
        fracGe (ratio x word) (7, 10) := by
    intro p hp
    rw [List.mem_filterMap] at hp
    obtain ⟨a, ha, hfa⟩ := hp
    split at hfa
    · rename_i hgates
      simp only [Option.some.injEq] at hfa
      subst hfa
      obtain ⟨-, hget⟩ := enumFrom_mem_getElem poss 0 a ha
      exact ⟨a.2, by simpa using hget, rfl, hgates.1, hgates.2.1, hgates.2.2⟩
    · simp at hfa
  have hmemP : ∀ p ∈ (sortDesc ((enumFrom 0 poss).filterMap (fun p =>
      if fracGe (real_quick_ratio p.2 word) (7, 10) ∧ fracGe (quick_ratio p.2 word) (7, 10) ∧
          fracGe (ratio p.2 word) (7, 10) then some (ratio p.2 word, p.1) else none))).take 5,
      ∃ x, poss[p.2]? = some x ∧ p.1 = ratio x word ∧
        fracGe (real_quick_ratio x word) (7, 10) ∧ fracGe (quick_ratio x word) (7, 10) ∧
        fracGe (ratio x word) (7, 10) := by
    intro p hp
    exact hInv p (mem_sortDesc p _ (List.mem_of_mem_take hp))
  refine ⟨?_, ?_, ?_⟩
  · rw [List.length_map]
    exact List.length_take_le _ _
  · intro i hi
    rw [List.mem_map] at hi
    obtain ⟨p, hp, rfl⟩ := hi
    obtain ⟨x, hx, _, hgates⟩ := hmemP p hp
    exact ⟨x, hx, hgates⟩
  · rw [List.chain'_map]
    apply chain'_imp_mem _ ?_ (chain'_take _ 5 (chain'_sortDesc _))
    intro p hp p' hp' hord x y hx hy
    obtain ⟨x0, hx0, hpx0, -⟩ := hmemP p hp
    obtain ⟨y0, hy0, hpy0, -⟩ := hmemP p' hp'
    rw [hx0] at hx
    rw [hy0] at hy
    cases hx
    cases hy
    rw [← hpx0, ← hpy0]
    exact pOrd_fracGe p p' hord

/-- C3: the fuzzy-input stage returns at most 5 moves; every returned move's
simplified input passes the three ratio gates (`real_quick_ratio`,
`quick_ratio`, full `ratio`) at 0.7 against the simplified query, and the
returned moves are ranked with non-increasing full ratio. -/
theorem fuzzy_stage_bounded (db : FrameDbT) (c q : Str) (moves : List Move)
    (h : get_moves_by_move_input db c q = Except.ok moves) :
    moves.length ≤ 5 ∧
    (∀ m ∈ moves,
      fracGe (real_quick_ratio (simplify_input m.input) (simplify_input q)) (7, 10) ∧
      fracGe (quick_ratio (simplify_input m.input) (simplify_input q)) (7, 10) ∧
      fracGe (ratio (simplify_input m.input) (simplify_input q)) (7, 10)) ∧
    List.Chain' (fun m1 m2 =>
      fracGe (ratio (simplify_input m1.input) (simplify_input q))
        (ratio (simplify_input m2.input) (simplify_input q))) moves := by
  unfold get_moves_by_move_input at h
  split at h
  · simp at h
  · rename_i ch hch
    simp only [] at h
    cases hgc : get_close_matches_indices 5 (7, 10) (simplify_input q)
        (((movesOf ch).map Move.input).map simplify_input) with
    | error e =>
      rw [hgc] at h
      simp at h
    | ok idxs =>
      rw [hgc] at h
      simp only [Except.ok.injEq] at h
      subst h
      obtain ⟨hlen, hmem, hchain⟩ := get_close_matches_spec _ _ _ hgc
      have hcorr : ∀ (i : Nat) (x : Str) (m : Move),
          (((movesOf ch).map Move.input).map simplify_input)[i]? = some x →
          (movesOf ch)[i]? = some m → x = simplify_input m.input := by
        intro i x m hx hm
        rw [List.getElem?_map, List.getElem?_map, hm] at hx
        simp only [Option.map_some'] at hx
        exact (Option.some.inj hx).symm
      have htot : ∀ i ∈ idxs, ∃ m, (movesOf ch)[i]? = some m := by
        intro i hi
        obtain ⟨x, hx, -⟩ := hmem i hi
        have hlt : i < (((movesOf ch).map Move.input).map simplify_input).length :=
          (List.getElem?_eq_some.mp hx).1
        rw [List.length_map, List.length_map] at hlt
        exact ⟨(movesOf ch)[i], List.getElem?_eq_getElem hlt⟩
      refine ⟨?_, ?_, ?_⟩
      · exact Nat.le_trans (List.length_filterMap_le _ _) hlen
      · intro m hm
        rw [List.mem_filterMap] at hm
        obtain ⟨i, hi, hmi⟩ := hm
        obtain ⟨x, hx, hgates⟩ := hmem i hi
        have heq := hcorr i x m hx hmi
        rw [← heq]
        exact hgates
      · apply chain'_filterMap_total (fun idx => (movesOf ch)[idx]?) _ _ idxs htot ?_ hchain
        intro a ha a' ha' b b' hR hfa hfa'
        obtain ⟨x, hx, -⟩ := hmem a ha
        obtain ⟨y, hy, -⟩ := hmem a' ha'
        have hxb := hcorr a x b hx hfa
        have hyb := hcorr a' y b' hy hfa'
        rw [← hxb, ← hyb]
        exact hR _ _ hx hy

/-- C3 witness: a concrete database on which the fuzzy stage returns one
exact-similarity move. -/
theorem fuzzy_stage_bounded_witness :
    get_moves_by_move_input
      [(strL "x", ⟨strL "x", [(strL "m1", mkMove (strL "m1") (strL "f+1") (strL "i10") [])]⟩)]
      (strL "x") (strL "f+1") =
      Except.ok [mkMove (strL "m1") (strL "f+1") (strL "i10") []] ∧
    ([mkMove (strL "m1") (strL "f+1") (strL "i10") []] : List Move).length ≤ 5 :=
  ⟨by decide,
   (fuzzy_stage_bounded
     [(strL "x", ⟨strL "x", [(strL "m1", mkMove (strL "m1") (strL "f+1") (strL "i10") [])]⟩)]
     (strL "x") (strL "f+1") [mkMove (strL "m1") (strL "f+1") (strL "i10") []] (by decide)).1⟩
